import Mathlib

/-!
Verification of `igraph_generalized_petersen`
(src/src/constructors/generalized_petersen.c) against its specification.

The C function validates its two integer parameters, builds a flat list of
edge endpoints (three undirected edges per outer-ring index `i`), and hands
the list together with the vertex count `2 * n` to the graph factory
`igraph_create`.  `igraph_integer_t` is a signed 64-bit integer; arithmetic
is embedded on `Int`, with `Int.tmod` for the C `%` operator (C truncates
toward zero).
-/

namespace Petersen

/-- Error values produced by the embedded functions. `einval` corresponds to
`IGRAPH_EINVAL` together with the message passed to `IGRAPH_ERROR`. -/
inductive IgraphErr where
  | einval (msg : String)
  deriving DecidableEq, Repr

/-- The graph object: vertex count, flat list of edge endpoints (two
consecutive entries form one edge), and directedness flag. -/
structure IgraphT where
  no_of_nodes : Int
  edges : List Int
  directed : Bool
  deriving DecidableEq, Repr

/-- Group a flat endpoint list into consecutive pairs, as `igraph_create`
interprets its edge vector. -/
def pairUp : List Int → List (Int × Int)
  | a :: b :: rest => (a, b) :: pairUp rest
  | _ => []

/-- The six endpoints pushed by one iteration of the C loop
(lines 70–76 of generalized_petersen.c): the outer-cycle edge
`(i, (i+1) mod n)`, the spoke `(i, i+n)` and the inner edge
`(i+n, ((i+k) mod n) + n)`. -/
def edgeTriple (n k i : Int) : List Int :=
  [i, (i + 1).tmod n, i, i + n, i + n, ((i + k).tmod n) + n]

/-- `appendLoop T m = T 0 ++ T 1 ++ ... ++ T (m-1)`: the contents of a
vector built by pushing the block `T i` at iteration `i` of a loop. -/
def appendLoop (T : Nat → List α) : Nat → List α
  | 0 => []
  | m + 1 => appendLoop T m ++ T m

/-- The full endpoint list built by the C loop `for (i = 0; i < n; i++)`. -/
def enumerateEdges (n k : Int) : List Int :=
  appendLoop (fun i => edgeTriple n k (i : Int)) n.toNat

/-- Modelled from the spec: the external Graph Factory `igraph_create`
(not under src/; §4.3 and §6 of the spec describe the consumed interface
only).  It takes the flat endpoint sequence, the vertex count and the
directedness flag, interprets the endpoints as pairs of vertex indices in
`[0, vertex_count)`, and returns the graph value, or a construction error
when the edge list is malformed (odd length or an endpoint out of range). -/
def igraph_create (edges : List Int) (n : Int) (directed : Bool) :
    Except IgraphErr IgraphT :=
  if edges.length % 2 = 0 ∧ ∀ v ∈ edges, 0 ≤ v ∧ v < n then
    .ok ⟨n, edges, directed⟩
  else
    .error (.einval "Invalid (negative or too large) vertex ID")

/-- Embedding of `igraph_generalized_petersen` (lines 52–84): validate the
parameters, build the endpoint list, call `igraph_create` with `2*n`
vertices, undirected. -/
def igraph_generalized_petersen (n k : Int) : Except IgraphErr IgraphT :=
  if n < 3 then
    .error (.einval "n must be at least 3.")
  else if ¬ (k > 0 ∧ 2 * k < n) then
    .error (.einval "k must be positive and less than n/2.")
  else
    igraph_create (enumerateEdges n k) (2 * n) false

/-- The allocation-like events of one call, in program order, mirroring the
control flow of the C function: both parameter checks return before
`IGRAPH_VECTOR_INT_INIT_FINALLY`, so the error path performs none. -/
def allocationEvents (n k : Int) : List String :=
  if n < 3 then []
  else if ¬ (k > 0 ∧ 2 * k < n) then []
  else ["vector_int_init", "vector_int_reserve", "igraph_create"]

/-- The capacity argument passed to `igraph_vector_int_reserve` on line 67:
`3*n` (in units of vector elements, i.e. single integers). -/
def reserveArg (n : Int) : Int := 3 * n

/-- Number of vertices of a built graph. -/
def vcount (g : IgraphT) : Int := g.no_of_nodes

/-- Number of edges of a built graph: endpoint pairs in its edge list. -/
def ecount (g : IgraphT) : Nat := (pairUp g.edges).length

/-- The validity predicate on the parameters: exactly the conditions the C
function does not reject. -/
def ValidParams (n k : Int) : Prop := 3 ≤ n ∧ 0 < k ∧ 2 * k < n

instance : DecidablePred fun p : Int × Int => ValidParams p.1 p.2 := by
  unfold ValidParams; infer_instance

/- ### Basic facts about the loop -/

theorem edgeTriple_length (n k i : Int) : (edgeTriple n k i).length = 6 := rfl

theorem appendLoop_length (T : Nat → List α) (c : Nat)
    (h : ∀ i, (T i).length = c) :
    ∀ m, (appendLoop T m).length = c * m := by
  intro m
  induction m with
  | zero => simp [appendLoop]
  | succ m ih =>
      simp [appendLoop, List.length_append, ih, h m, Nat.mul_succ]

theorem appendLoop_drop_take (T : Nat → List α) (c : Nat)
    (h : ∀ i, (T i).length = c) :
    ∀ m i, i < m → ((appendLoop T m).drop (c * i)).take c = T i := by
  intro m
  induction m with
  | zero => intro i hi; omega
  | succ m ih =>
      intro i hi
      rcases Nat.lt_succ_iff_lt_or_eq.mp hi with hlt | heq
      · have hlen : (appendLoop T m).length = c * m := appendLoop_length T c h m
        have hle : c * i ≤ (appendLoop T m).length := by
          rw [hlen]; exact Nat.mul_le_mul_left c (Nat.le_of_lt hlt)
        rw [appendLoop, List.drop_append_of_le_length hle]
        have hdlen : ((appendLoop T m).drop (c * i)).length = c * m - c * i := by
          rw [List.length_drop, hlen]
        have hc6 : c ≤ ((appendLoop T m).drop (c * i)).length := by
          rw [hdlen]
          have : c * i + c ≤ c * m := by
            have := Nat.mul_le_mul_left c hlt
            calc c * i + c = c * (i + 1) := by ring
              _ ≤ c * m := by exact Nat.mul_le_mul_left c hlt
          omega
        rw [List.take_append_of_le_length hc6]
        exact ih i hlt
      · subst heq
        have hlen : (appendLoop T i).length = c * i := appendLoop_length T c h i
        rw [appendLoop, List.drop_left' hlen]
        exact List.take_of_length_le (Nat.le_of_eq (h i))

theorem mem_appendLoop {T : Nat → List α} {x : α} :
    ∀ {m}, x ∈ appendLoop T m ↔ ∃ i, i < m ∧ x ∈ T i := by
  intro m
  induction m with
  | zero => simp [appendLoop]
  | succ m ih =>
      simp only [appendLoop, List.mem_append, ih]
      constructor
      · rintro (⟨i, hi, hx⟩ | hx)
        · exact ⟨i, Nat.lt_succ_of_lt hi, hx⟩
        · exact ⟨m, Nat.lt_succ_self m, hx⟩
      · rintro ⟨i, hi, hx⟩
        rcases Nat.lt_succ_iff_lt_or_eq.mp hi with h | h
        · exact Or.inl ⟨i, h, hx⟩
        · subst h; exact Or.inr hx

theorem pairUp_length : ∀ l : List Int, (pairUp l).length = l.length / 2
  | [] => rfl
  | [_] => by simp [pairUp]
  | a :: b :: rest => by
      simp only [pairUp, List.length_cons, pairUp_length rest]
      omega

theorem pairUp_append : ∀ (X Y : List Int), X.length % 2 = 0 →
    pairUp (X ++ Y) = pairUp X ++ pairUp Y
  | [], _, _ => rfl
  | [_], _, h => by simp at h
  | a :: b :: rest, Y, h => by
      have hr : rest.length % 2 = 0 := by
        simp only [List.length_cons] at h; omega
      simp only [List.cons_append, pairUp]
      exact congrArg (List.cons (a, b)) (pairUp_append rest Y hr)

/- ### The C modulo on the operands that occur in the loop -/

theorem tmod_char (n a : Int) (hn : 0 < n) (h0 : 0 ≤ a) (h2 : a < 2 * n) :
    ((a.tmod n = a ∧ a < n) ∨ (a.tmod n = a - n ∧ n ≤ a)) ∧
      0 ≤ a.tmod n ∧ a.tmod n < n := by
  have he : a.tmod n = a % n := Int.tmod_eq_emod h0 (le_of_lt hn)
  refine ⟨?_, ?_, ?_⟩
  · by_cases hlt : a < n
    · exact Or.inl ⟨by rw [he, Int.emod_eq_of_lt h0 hlt], hlt⟩
    · push_neg at hlt
      refine Or.inr ⟨?_, hlt⟩
      rw [he, ← Int.emod_sub_cancel a n]
      exact Int.emod_eq_of_lt (by omega) (by omega)
  · rw [he]; exact Int.emod_nonneg a (ne_of_gt hn)
  · rw [he]; exact Int.emod_lt_of_pos a hn

theorem mem_edgeTriple_range {n k i x : Int} (hn : 3 ≤ n) (hk : 0 < k)
    (hk2 : 2 * k < n) (hi0 : 0 ≤ i) (hi : i < n) (hx : x ∈ edgeTriple n k i) :
    (0 ≤ x ∧ x < n) ∨ (n ≤ x ∧ x < 2 * n) := by
  have h1 := tmod_char n (i + 1) (by omega) (by omega) (by omega)
  have h2 := tmod_char n (i + k) (by omega) (by omega) (by omega)
  simp only [edgeTriple, List.mem_cons, List.not_mem_nil, or_false] at hx
  rcases hx with rfl | rfl | rfl | rfl | rfl | rfl <;> omega

theorem enumerateEdges_range {n k : Int} (h : ValidParams n k) :
    ∀ x ∈ enumerateEdges n k, (0 ≤ x ∧ x < n) ∨ (n ≤ x ∧ x < 2 * n) := by
  obtain ⟨hn, hk, hk2⟩ := h
  intro x hx
  obtain ⟨i, him, hx⟩ := mem_appendLoop.mp hx
  have hi : (i : Int) < n := by omega
  exact mem_edgeTriple_range hn hk hk2 (by positivity) hi hx

theorem enumerateEdges_length {n k : Int} :
    (enumerateEdges n k).length = 6 * n.toNat :=
  appendLoop_length (fun i => edgeTriple n k (i : Int)) 6 (fun _ => rfl) n.toNat

/-- On valid parameters the function reaches `igraph_create`, and the
modelled factory accepts the edge list because every endpoint lies in
`[0, 2*n)` and the list has even length. -/
theorem gp_ok {n k : Int} (h : ValidParams n k) :
    igraph_generalized_petersen n k =
      .ok ⟨2 * n, enumerateEdges n k, false⟩ := by
  obtain ⟨hn, hk, hk2⟩ := h
  unfold igraph_generalized_petersen
  rw [if_neg (by omega), if_neg (not_not_intro ⟨hk, hk2⟩)]
  unfold igraph_create
  rw [if_pos]
  refine ⟨by rw [enumerateEdges_length]; omega, ?_⟩
  intro v hv
  rcases enumerateEdges_range ⟨hn, hk, hk2⟩ v hv with ⟨h1, h2⟩ | ⟨h1, h2⟩ <;>
    constructor <;> omega

/- ### Claim theorems: C1, C2, C3, C9 -/

/-- C1: for every valid input (n ≥ 3, 0 < k, 2k < n) the enumerator emits,
for each i from 0 to n-1 in increasing order, exactly the three undirected
edges (i, (i+1) mod n), (i, i+n), (i+n, ((i+k) mod n) + n), in that order:
the endpoint list has exactly 3n edges (6n entries), and the 6-entry block
at offset 6i is exactly the i-th triple. -/
theorem c1_edge_emission (n k : Int) (h : ValidParams n k) :
    (enumerateEdges n k).length = 6 * n.toNat ∧
    (pairUp (enumerateEdges n k)).length = 3 * n.toNat ∧
    ∀ i : Nat, i < n.toNat →
      ((enumerateEdges n k).drop (6 * i)).take 6 =
        [(i : Int), ((i : Int) + 1).tmod n, (i : Int), (i : Int) + n,
         (i : Int) + n, (((i : Int) + k).tmod n) + n] := by
  refine ⟨enumerateEdges_length, ?_, ?_⟩
  · rw [pairUp_length, enumerateEdges_length]; omega
  · intro i hi
    exact appendLoop_drop_take (fun i => edgeTriple n k (i : Int)) 6
      (fun _ => rfl) n.toNat i hi

theorem c1_edge_emission_witness :
    (enumerateEdges 5 2).length = 6 * (5 : Int).toNat ∧
    (pairUp (enumerateEdges 5 2)).length = 3 * (5 : Int).toNat ∧
    ∀ i : Nat, i < (5 : Int).toNat →
      ((enumerateEdges 5 2).drop (6 * i)).take 6 =
        [(i : Int), ((i : Int) + 1).tmod 5, (i : Int), (i : Int) + 5,
         (i : Int) + 5, (((i : Int) + 2).tmod 5) + 5] :=
  c1_edge_emission 5 2 (by refine ⟨by norm_num, by norm_num, by norm_num⟩)

/-- C2: for every valid input the function succeeds and the produced graph
has exactly 2n vertices and exactly 3n edges. -/
theorem c2_success_counts (n k : Int) (h : ValidParams n k) :
    ∃ g : IgraphT, igraph_generalized_petersen n k = .ok g ∧
      vcount g = 2 * n ∧ ecount g = 3 * n.toNat := by
  refine ⟨⟨2 * n, enumerateEdges n k, false⟩, gp_ok h, rfl, ?_⟩
  show (pairUp (enumerateEdges n k)).length = 3 * n.toNat
  rw [pairUp_length, enumerateEdges_length]; omega

theorem c2_success_counts_witness :
    ∃ g : IgraphT, igraph_generalized_petersen 5 2 = .ok g ∧
      vcount g = 2 * 5 ∧ ecount g = 3 * (5 : Int).toNat :=
  c2_success_counts 5 2 (by refine ⟨by norm_num, by norm_num, by norm_num⟩)

/-- C3: for every pair of integers (n, k) the function returns an
`IGRAPH_EINVAL` error exactly when n < 3 or not (k > 0 and 2k < n), and on
that rejection path no allocation-like event happens: both checks return
before `IGRAPH_VECTOR_INT_INIT_FINALLY`. -/
theorem c3_validation (n k : Int) :
    ((∃ msg, igraph_generalized_petersen n k = .error (.einval msg)) ↔
      (n < 3 ∨ ¬ (0 < k ∧ 2 * k < n))) ∧
    ((n < 3 ∨ ¬ (0 < k ∧ 2 * k < n)) → allocationEvents n k = []) := by
  constructor
  · constructor
    · intro ⟨msg, hmsg⟩
      by_contra hcon
      push_neg at hcon
      obtain ⟨hn, hkk⟩ := hcon
      rw [gp_ok ⟨by omega, hkk.1, hkk.2⟩] at hmsg
      exact Except.noConfusion hmsg
    · intro hbad
      unfold igraph_generalized_petersen
      by_cases hn : n < 3
      · rw [if_pos hn]; exact ⟨_, rfl⟩
      · have hkk : ¬ (k > 0 ∧ 2 * k < n) := by
          rcases hbad with h | h
          · omega
          · exact fun hc => h ⟨hc.1, hc.2⟩
        rw [if_neg hn, if_pos hkk]
        exact ⟨_, rfl⟩
  · intro hbad
    unfold allocationEvents
    by_cases hn : n < 3
    · rw [if_pos hn]
    · have hkk : ¬ (k > 0 ∧ 2 * k < n) := by
        rcases hbad with h | h
        · omega
        · exact fun hc => h ⟨hc.1, hc.2⟩
      rw [if_neg hn, if_pos hkk]

theorem c3_validation_witness :
    (∃ msg, igraph_generalized_petersen 2 1 = .error (.einval msg)) ∧
      allocationEvents 2 1 = [] :=
  ⟨(c3_validation 2 1).1.mpr (by norm_num),
   (c3_validation 2 1).2 (by norm_num)⟩

/-- C9: for every valid input every endpoint appended to the edge list lies
in [0, n) or [n, 2n) — a valid vertex index below 2n — and every modulo
operand is non-negative, with i+1 and i+k below 2n before reduction, so the
mod-n reductions never produce a negative result. -/
theorem c9_index_ranges (n k : Int) (h : ValidParams n k) :
    (∀ x ∈ enumerateEdges n k, (0 ≤ x ∧ x < n) ∨ (n ≤ x ∧ x < 2 * n)) ∧
    (∀ i : Int, 0 ≤ i → i < n →
      (0 ≤ i + 1 ∧ i + 1 < 2 * n ∧ 0 ≤ i + k ∧ i + k < 2 * n) ∧
      0 ≤ (i + 1).tmod n ∧ 0 ≤ (i + k).tmod n) := by
  obtain ⟨hn, hk, hk2⟩ := h
  refine ⟨enumerateEdges_range ⟨hn, hk, hk2⟩, ?_⟩
  intro i h0 hi
  refine ⟨⟨by omega, by omega, by omega, by omega⟩, ?_, ?_⟩
  · exact Int.tmod_nonneg n (by omega)
  · exact Int.tmod_nonneg n (by omega)

theorem c9_index_ranges_witness :
    (∀ x ∈ enumerateEdges 5 2, (0 ≤ x ∧ x < 5) ∨ (5 ≤ x ∧ x < 2 * 5)) ∧
    (∀ i : Int, 0 ≤ i → i < 5 →
      (0 ≤ i + 1 ∧ i + 1 < 2 * 5 ∧ 0 ≤ i + 2 ∧ i + 2 < 2 * 5) ∧
      0 ≤ (i + 1).tmod 5 ∧ 0 ≤ (i + 2).tmod 5) :=
  c9_index_ranges 5 2 (by refine ⟨by norm_num, by norm_num, by norm_num⟩)

/- ### Determinism (C6) -/

/-- C6: the function is deterministic — two runs on the same input (n, k)
produce the same result: the same error on invalid input, and on valid
input identically indexed graphs with the same edge list in the same
order. -/
theorem c6_deterministic (n k : Int) (r1 r2 : Except IgraphErr IgraphT)
    (h1 : igraph_generalized_petersen n k = r1)
    (h2 : igraph_generalized_petersen n k = r2) :
    r1 = r2 ∧
      ∀ g1 g2, r1 = .ok g1 → r2 = .ok g2 → g1.edges = g2.edges := by
  subst h1
  subst h2
  refine ⟨rfl, ?_⟩
  intro g1 g2 e1 e2
  rw [e1] at e2
  cases e2
  rfl

theorem c6_deterministic_witness :
    igraph_generalized_petersen 5 2 = igraph_generalized_petersen 5 2 ∧
      ∀ g1 g2, igraph_generalized_petersen 5 2 = .ok g1 →
        igraph_generalized_petersen 5 2 = .ok g2 → g1.edges = g2.edges :=
  c6_deterministic 5 2 _ _ rfl rfl

/- ### The reserve call (C7) -/

/-- C7 (code bug): the reservation made on line 67 is `3*n` vector elements
(single integers), while the loop appends `6*n` integers (two endpoints per
edge, 3n edges), so the reserved capacity is exceeded and the buffer must
grow during the loop. -/
theorem c7_reserve_shortfall (n k : Int) (h : ValidParams n k) :
    reserveArg n = 3 * n ∧
    ((enumerateEdges n k).length : Int) = 6 * n ∧
    reserveArg n < ((enumerateEdges n k).length : Int) := by
  obtain ⟨hn, _, _⟩ := h
  have hl : (enumerateEdges n k).length = 6 * n.toNat := enumerateEdges_length
  refine ⟨rfl, ?_, ?_⟩
  · rw [hl]; omega
  · unfold reserveArg; rw [hl]; omega

theorem c7_reserve_shortfall_witness :
    reserveArg 5 = 3 * 5 ∧
    ((enumerateEdges 5 2).length : Int) = 6 * 5 ∧
    reserveArg 5 < ((enumerateEdges 5 2).length : Int) :=
  c7_reserve_shortfall 5 2 (by refine ⟨by norm_num, by norm_num, by norm_num⟩)

/- ### Intermediate arithmetic and the 64-bit range (C8) -/

/-- Largest value of `igraph_integer_t` (signed 64-bit). -/
def IGRAPH_INTEGER_MAX : Int := 2 ^ 63 - 1

/-- Smallest value of `igraph_integer_t` (signed 64-bit). -/
def IGRAPH_INTEGER_MIN : Int := -(2 ^ 63)

/-- `x` is representable in `igraph_integer_t`. -/
def InIntegerRange (x : Int) : Prop :=
  IGRAPH_INTEGER_MIN ≤ x ∧ x ≤ IGRAPH_INTEGER_MAX

/-- The intermediate values the function computes on a valid input: `2*n`
(line 55), `2*k` (line 63), `3*n` (line 67), and per loop iteration `i+1`,
`i+n`, `i+k` and the two reduced expressions pushed as endpoints. -/
def IsIntermediate (n k x : Int) : Prop :=
  x = 2 * n ∨ x = 2 * k ∨ x = 3 * n ∨
    ∃ i, 0 ≤ i ∧ i < n ∧
      (x = i + 1 ∨ x = i + n ∨ x = i + k ∨
       x = (i + 1).tmod n ∨ x = ((i + k).tmod n) + n)

/-- No intermediate value of the computation leaves the 64-bit range. -/
def NoIntermediateOverflow (n k : Int) : Prop :=
  ∀ x, IsIntermediate n k x → InIntegerRange x

/-- C8 counterexample: at n = 2^62 - 1 (which is at most half of
`IGRAPH_INTEGER_MAX`) and k = 1, the parameters are valid but the
intermediate `3*n` computed for the reserve call exceeds
`IGRAPH_INTEGER_MAX`, refuting the claim as stated. -/
theorem c8_half_range_counterexample :
    ValidParams 4611686018427387903 1 ∧
    2 * 4611686018427387903 ≤ IGRAPH_INTEGER_MAX ∧
    ¬ NoIntermediateOverflow 4611686018427387903 1 := by
  refine ⟨⟨by norm_num, by norm_num, by norm_num⟩,
    by norm_num [IGRAPH_INTEGER_MAX], ?_⟩
  intro hno
  have h3 := hno (3 * 4611686018427387903)
    (Or.inr (Or.inr (Or.inl rfl)))
  rcases h3 with ⟨_, hub⟩
  norm_num [IGRAPH_INTEGER_MAX] at hub

/-- C8 amended: for every valid input with n at most a third of the
maximum value of the host integer type (so that 3*n is representable), no
intermediate arithmetic performed by the function — including 2*n, 2*k,
3*n, i+1, i+n, i+k and the reduced endpoint expressions — overflows the
host integer range. -/
theorem c8_no_overflow (n k : Int) (h : ValidParams n k)
    (hbound : 3 * n ≤ IGRAPH_INTEGER_MAX) :
    NoIntermediateOverflow n k := by
  obtain ⟨hn, hk, hk2⟩ := h
  intro x hx
  have key : 0 ≤ x ∧ x ≤ 3 * n := by
    rcases hx with rfl | rfl | rfl | ⟨i, hi0, hin, hcase⟩
    · omega
    · omega
    · omega
    · have h1 := tmod_char n (i + 1) (by omega) (by omega) (by omega)
      have h2 := tmod_char n (i + k) (by omega) (by omega) (by omega)
      rcases hcase with rfl | rfl | rfl | rfl | rfl <;> omega
  have hmin : IGRAPH_INTEGER_MIN ≤ 0 := by norm_num [IGRAPH_INTEGER_MIN]
  exact ⟨by omega, by omega⟩

theorem c8_no_overflow_witness : NoIntermediateOverflow 5 2 :=
  c8_no_overflow 5 2 (by refine ⟨by norm_num, by norm_num, by norm_num⟩)
    (by norm_num [IGRAPH_INTEGER_MAX])

/- ### Degrees (C4) -/

/-- The first emitted pair of iteration i: the outer-cycle edge. -/
def outerPair (n i : Int) : Int × Int := (i, (i + 1).tmod n)

/-- The second emitted pair of iteration i: the spoke. -/
def spokePair (n i : Int) : Int × Int := (i, i + n)

/-- The third emitted pair of iteration i: the inner edge. -/
def innerPair (n k i : Int) : Int × Int := (i + n, ((i + k).tmod n) + n)

theorem pairUp_edgeTriple (n k i : Int) :
    pairUp (edgeTriple n k i) = [outerPair n i, spokePair n i, innerPair n k i] :=
  rfl

/-- `v` is an endpoint of the pair. -/
def incidentB (v : Int) (p : Int × Int) : Bool := (p.1 == v) || (p.2 == v)

/-- Both endpoints are outer vertices (below n). -/
def isOuterEdgeB (n : Int) (p : Int × Int) : Bool :=
  decide (p.1 < n) && decide (p.2 < n)

/-- First endpoint outer, second endpoint inner: a spoke. -/
def isSpokeB (n : Int) (p : Int × Int) : Bool :=
  decide (p.1 < n) && decide (n ≤ p.2)

/-- Both endpoints are inner vertices (at least n). -/
def isInnerEdgeB (n : Int) (p : Int × Int) : Bool :=
  decide (n ≤ p.1) && decide (n ≤ p.2)

theorem count_explicit6 (v a b c d e f : Int) :
    [a, b, c, d, e, f].count v =
      (if a = v then 1 else 0) + (if b = v then 1 else 0) +
      (if c = v then 1 else 0) + (if d = v then 1 else 0) +
      (if e = v then 1 else 0) + (if f = v then 1 else 0) := by
  simp only [List.count_cons, List.count_nil, beq_iff_eq]
  split_ifs <;> omega

theorem countP_explicit3 (q : Int × Int → Bool) (a b c : Int × Int) :
    [a, b, c].countP q =
      (if q a then 1 else 0) + (if q b then 1 else 0) +
      (if q c then 1 else 0) := by
  simp only [List.countP_cons, List.countP_nil]
  split_ifs <;> omega

theorem appendLoop_length_even (T : Nat → List Int)
    (h : ∀ i, (T i).length % 2 = 0) :
    ∀ m, (appendLoop T m).length % 2 = 0 := by
  intro m
  induction m with
  | zero => simp [appendLoop]
  | succ m ih =>
      rw [appendLoop, List.length_append]
      have := h m
      omega

theorem pairUp_appendLoop (T : Nat → List Int)
    (h : ∀ i, (T i).length % 2 = 0) :
    ∀ m, pairUp (appendLoop T m) = appendLoop (fun i => pairUp (T i)) m := by
  intro m
  induction m with
  | zero => rfl
  | succ m ih =>
      rw [appendLoop, pairUp_append _ _ (appendLoop_length_even T h m), ih]
      rfl

/-- Counting over the loop output when at most two iterations can
contribute: iteration `w1` contributes `a1` matches and iteration `w2`
contributes `a2`. -/
theorem countP_appendLoop_two (T : Nat → List α) (q : α → Bool)
    (w1 w2 : Int) (a1 a2 M : Nat)
    (htrip : ∀ i : Nat, i < M → (T i).countP q =
      (if (i : Int) = w1 then a1 else 0) + (if (i : Int) = w2 then a2 else 0)) :
    ∀ m, m ≤ M → (appendLoop T m).countP q =
      (if 0 ≤ w1 ∧ w1 < (m : Int) then a1 else 0) +
      (if 0 ≤ w2 ∧ w2 < (m : Int) then a2 else 0) := by
  intro m
  induction m with
  | zero =>
      intro _
      simp only [appendLoop, List.countP_nil]
      split_ifs <;> omega
  | succ m ih =>
      intro hm
      rw [appendLoop, List.countP_append, ih (by omega), htrip m (by omega)]
      split_ifs <;> omega

theorem countP_appendLoop_zero (T : Nat → List α) (q : α → Bool) (M : Nat)
    (htrip : ∀ i : Nat, i < M → (T i).countP q = 0) :
    ∀ m, m ≤ M → (appendLoop T m).countP q = 0 := by
  intro m
  induction m with
  | zero => intro _; simp [appendLoop]
  | succ m ih =>
      intro hm
      rw [appendLoop, List.countP_append, ih (by omega), htrip m (by omega)]

theorem countP_appendLoop_one (T : Nat → List α) (q : α → Bool)
    (w : Int) (a M : Nat)
    (htrip : ∀ i : Nat, i < M → (T i).countP q =
      (if (i : Int) = w then a else 0)) :
    ∀ m, m ≤ M → (appendLoop T m).countP q =
      (if 0 ≤ w ∧ w < (m : Int) then a else 0) := by
  intro m
  induction m with
  | zero =>
      intro _
      simp only [appendLoop, List.countP_nil]
      split_ifs <;> omega
  | succ m ih =>
      intro hm
      rw [appendLoop, List.countP_append, ih (by omega), htrip m (by omega)]
      split_ifs <;> omega

theorem pairUp_enumerateEdges (n k : Int) :
    pairUp (enumerateEdges n k) =
      appendLoop (fun i => [outerPair n (i : Int), spokePair n (i : Int),
        innerPair n k (i : Int)]) n.toNat := by
  unfold enumerateEdges
  rw [pairUp_appendLoop (fun i => edgeTriple n k (i : Int))
    (fun _ => by simp [edgeTriple]) n.toNat]
  rfl

/-- C4: for every valid input every vertex of the produced graph has degree
exactly 3, counting endpoint occurrences in the emitted edge list: each
outer vertex v < n is an endpoint of two outer-cycle edges and one spoke
(and no inner edge), each inner vertex v ∈ [n, 2n) is an endpoint of two
inner-cycle edges and one spoke (and no outer-cycle edge). -/
theorem c4_degree_three (n k : Int) (h : ValidParams n k) :
    ∀ v : Int, 0 ≤ v → v < 2 * n →
      (enumerateEdges n k).count v = 3 ∧
      (v < n →
        (pairUp (enumerateEdges n k)).countP
            (fun p => incidentB v p && isOuterEdgeB n p) = 2 ∧
        (pairUp (enumerateEdges n k)).countP
            (fun p => incidentB v p && isSpokeB n p) = 1 ∧
        (pairUp (enumerateEdges n k)).countP
            (fun p => incidentB v p && isInnerEdgeB n p) = 0) ∧
      (n ≤ v →
        (pairUp (enumerateEdges n k)).countP
            (fun p => incidentB v p && isOuterEdgeB n p) = 0 ∧
        (pairUp (enumerateEdges n k)).countP
            (fun p => incidentB v p && isSpokeB n p) = 1 ∧
        (pairUp (enumerateEdges n k)).countP
            (fun p => incidentB v p && isInnerEdgeB n p) = 2) := by
  obtain ⟨hn, hk, hk2⟩ := h
  intro v hv0 hv2
  rw [pairUp_enumerateEdges]
  have hcast : ((n.toNat : Nat) : Int) = n := by omega
  by_cases hvn : v < n
  · -- v is an outer vertex
    obtain ⟨w2, hw2a, hw2b, hw2c⟩ :
        ∃ w2 : Int, 0 ≤ w2 ∧ w2 < n ∧ (w2 + 1 = v ∨ (w2 + 1 = n ∧ v = 0)) := by
      by_cases h0 : v = 0
      · exact ⟨n - 1, by omega, by omega, Or.inr ⟨by ring, h0⟩⟩
      · exact ⟨v - 1, by omega, by omega, Or.inl (by ring)⟩
    have hw2ne : v ≠ w2 := by omega
    refine ⟨?_, fun _ => ⟨?_, ?_, ?_⟩, fun hge => absurd hge (by omega)⟩
    · -- flat endpoint count is 3 = 2 + 1
      rw [List.count_eq_countP]
      unfold enumerateEdges
      rw [countP_appendLoop_two _ _ v w2 2 1 n.toNat ?_ n.toNat le_rfl]
      · rw [if_pos ⟨hv0, by omega⟩, if_pos ⟨hw2a, by omega⟩]
      · intro i hi
        have h1 := tmod_char n ((i : Int) + 1) (by omega) (by omega) (by omega)
        have h2 := tmod_char n ((i : Int) + k) (by omega) (by omega) (by omega)
        rw [show (edgeTriple n k (i : Int)).countP (· == v) =
              (edgeTriple n k (i : Int)).count v from rfl]
        rw [show edgeTriple n k (i : Int) =
              [(i : Int), ((i : Int) + 1).tmod n, (i : Int), (i : Int) + n,
               (i : Int) + n, (((i : Int) + k).tmod n) + n] from rfl]
        rw [count_explicit6]
        split_ifs <;> omega
    · -- two outer-cycle edges
      rw [countP_appendLoop_two _ _ v w2 1 1 n.toNat ?_ n.toNat le_rfl]
      · rw [if_pos ⟨hv0, by omega⟩, if_pos ⟨hw2a, by omega⟩]
      · intro i hi
        have h1 := tmod_char n ((i : Int) + 1) (by omega) (by omega) (by omega)
        have h2 := tmod_char n ((i : Int) + k) (by omega) (by omega) (by omega)
        rw [countP_explicit3]
        simp only [outerPair, spokePair, innerPair, incidentB, isOuterEdgeB,
          isSpokeB, isInnerEdgeB, Bool.and_eq_true, Bool.or_eq_true,
          beq_iff_eq, decide_eq_true_eq]
        split_ifs <;> omega
    · -- one spoke
      rw [countP_appendLoop_one _ _ v 1 n.toNat ?_ n.toNat le_rfl]
      · rw [if_pos ⟨hv0, by omega⟩]
      · intro i hi
        have h1 := tmod_char n ((i : Int) + 1) (by omega) (by omega) (by omega)
        have h2 := tmod_char n ((i : Int) + k) (by omega) (by omega) (by omega)
        rw [countP_explicit3]
        simp only [outerPair, spokePair, innerPair, incidentB, isOuterEdgeB,
          isSpokeB, isInnerEdgeB, Bool.and_eq_true, Bool.or_eq_true,
          beq_iff_eq, decide_eq_true_eq]
        split_ifs <;> omega
    · -- no inner edge
      apply countP_appendLoop_zero _ _ n.toNat ?_ n.toNat le_rfl
      intro i hi
      have h1 := tmod_char n ((i : Int) + 1) (by omega) (by omega) (by omega)
      have h2 := tmod_char n ((i : Int) + k) (by omega) (by omega) (by omega)
      rw [countP_explicit3]
      simp only [outerPair, spokePair, innerPair, incidentB, isOuterEdgeB,
        isSpokeB, isInnerEdgeB, Bool.and_eq_true, Bool.or_eq_true,
        beq_iff_eq, decide_eq_true_eq]
      split_ifs <;> omega
  · -- v is an inner vertex
    push_neg at hvn
    obtain ⟨w2, hw2a, hw2b, hw2c⟩ :
        ∃ w2 : Int, 0 ≤ w2 ∧ w2 < n ∧
          (w2 + k = v - n ∨ w2 + k = v - n + n) := by
      by_cases hku : k ≤ v - n
      · exact ⟨v - n - k, by omega, by omega, Or.inl (by ring)⟩
      · exact ⟨v - n - k + n, by omega, by omega, Or.inr (by ring)⟩
    have hw2ne : v - n ≠ w2 := by omega
    refine ⟨?_, fun hlt => absurd hlt (by omega), fun _ => ⟨?_, ?_, ?_⟩⟩
    · -- flat endpoint count is 3 = 2 + 1
      rw [List.count_eq_countP]
      unfold enumerateEdges
      rw [countP_appendLoop_two _ _ (v - n) w2 2 1 n.toNat ?_ n.toNat le_rfl]
      · rw [if_pos ⟨by omega, by omega⟩, if_pos ⟨hw2a, by omega⟩]
      · intro i hi
        have h1 := tmod_char n ((i : Int) + 1) (by omega) (by omega) (by omega)
        have h2 := tmod_char n ((i : Int) + k) (by omega) (by omega) (by omega)
        rw [show (edgeTriple n k (i : Int)).countP (· == v) =
              (edgeTriple n k (i : Int)).count v from rfl]
        rw [show edgeTriple n k (i : Int) =
              [(i : Int), ((i : Int) + 1).tmod n, (i : Int), (i : Int) + n,
               (i : Int) + n, (((i : Int) + k).tmod n) + n] from rfl]
        rw [count_explicit6]
        split_ifs <;> omega
    · -- no outer-cycle edge
      apply countP_appendLoop_zero _ _ n.toNat ?_ n.toNat le_rfl
      intro i hi
      have h1 := tmod_char n ((i : Int) + 1) (by omega) (by omega) (by omega)
      have h2 := tmod_char n ((i : Int) + k) (by omega) (by omega) (by omega)
      rw [countP_explicit3]
      simp only [outerPair, spokePair, innerPair, incidentB, isOuterEdgeB,
        isSpokeB, isInnerEdgeB, Bool.and_eq_true, Bool.or_eq_true,
        beq_iff_eq, decide_eq_true_eq]
      split_ifs <;> omega
    · -- one spoke
      rw [countP_appendLoop_one _ _ (v - n) 1 n.toNat ?_ n.toNat le_rfl]
      · rw [if_pos ⟨by omega, by omega⟩]
      · intro i hi
        have h1 := tmod_char n ((i : Int) + 1) (by omega) (by omega) (by omega)
        have h2 := tmod_char n ((i : Int) + k) (by omega) (by omega) (by omega)
        rw [countP_explicit3]
        simp only [outerPair, spokePair, innerPair, incidentB, isOuterEdgeB,
          isSpokeB, isInnerEdgeB, Bool.and_eq_true, Bool.or_eq_true,
          beq_iff_eq, decide_eq_true_eq]
        split_ifs <;> omega
    · -- two inner edges
      rw [countP_appendLoop_two _ _ (v - n) w2 1 1 n.toNat ?_ n.toNat le_rfl]
      · rw [if_pos ⟨by omega, by omega⟩, if_pos ⟨hw2a, by omega⟩]
      · intro i hi
        have h1 := tmod_char n ((i : Int) + 1) (by omega) (by omega) (by omega)
        have h2 := tmod_char n ((i : Int) + k) (by omega) (by omega) (by omega)
        rw [countP_explicit3]
        simp only [outerPair, spokePair, innerPair, incidentB, isOuterEdgeB,
          isSpokeB, isInnerEdgeB, Bool.and_eq_true, Bool.or_eq_true,
          beq_iff_eq, decide_eq_true_eq]
        split_ifs <;> omega

theorem c4_degree_three_witness :
    (enumerateEdges 5 2).count 3 = 3 ∧
    ((3 : Int) < 5 →
      (pairUp (enumerateEdges 5 2)).countP
          (fun p => incidentB 3 p && isOuterEdgeB 5 p) = 2 ∧
      (pairUp (enumerateEdges 5 2)).countP
          (fun p => incidentB 3 p && isSpokeB 5 p) = 1 ∧
      (pairUp (enumerateEdges 5 2)).countP
          (fun p => incidentB 3 p && isInnerEdgeB 5 p) = 0) ∧
    ((5 : Int) ≤ 3 →
      (pairUp (enumerateEdges 5 2)).countP
          (fun p => incidentB 3 p && isOuterEdgeB 5 p) = 0 ∧
      (pairUp (enumerateEdges 5 2)).countP
          (fun p => incidentB 3 p && isSpokeB 5 p) = 1 ∧
      (pairUp (enumerateEdges 5 2)).countP
          (fun p => incidentB 3 p && isInnerEdgeB 5 p) = 2) :=
  c4_degree_three 5 2 (by refine ⟨by norm_num, by norm_num, by norm_num⟩) 3
    (by norm_num) (by norm_num)

/- ### Simplicity (C10) -/

/-- Two pairs denote the same undirected edge. -/
def sameEdge (p q : Int × Int) : Prop :=
  (p.1 = q.1 ∧ p.2 = q.2) ∨ (p.1 = q.2 ∧ p.2 = q.1)

theorem pairwise_appendLoop (R : α → α → Prop) (T : Nat → List α) (M : Nat)
    (hin : ∀ i, i < M → List.Pairwise R (T i))
    (hcross : ∀ i j, i < j → j < M → ∀ a ∈ T i, ∀ b ∈ T j, R a b) :
    ∀ m, m ≤ M → List.Pairwise R (appendLoop T m) := by
  intro m
  induction m with
  | zero => intro _; exact List.Pairwise.nil
  | succ m ih =>
      intro hm
      rw [appendLoop, List.pairwise_append]
      refine ⟨ih (by omega), hin m (by omega), ?_⟩
      intro a ha b hb
      obtain ⟨i, hi, hai⟩ := mem_appendLoop.mp ha
      exact hcross i m hi (by omega) a hai b hb

/-- C10: for every valid input the 3n emitted undirected edges contain no
self-loop and no two of them connect the same unordered pair of vertices —
the produced graph is simple.  (The strict bound 2k < n is what rules out a
duplicated or degenerate inner edge.) -/
theorem c10_simple_graph (n k : Int) (h : ValidParams n k) :
    (∀ p ∈ pairUp (enumerateEdges n k), p.1 ≠ p.2) ∧
    List.Pairwise (fun p q => ¬ sameEdge p q) (pairUp (enumerateEdges n k)) := by
  obtain ⟨hn, hk, hk2⟩ := h
  rw [pairUp_enumerateEdges]
  constructor
  · intro p hp
    obtain ⟨i, hi, hpi⟩ := mem_appendLoop.mp hp
    have h1 := tmod_char n ((i : Int) + 1) (by omega) (by omega) (by omega)
    have h2 := tmod_char n ((i : Int) + k) (by omega) (by omega) (by omega)
    simp only [List.mem_cons, List.not_mem_nil, or_false] at hpi
    rcases hpi with rfl | rfl | rfl <;>
      simp only [outerPair, spokePair, innerPair, ne_eq] <;> omega
  · apply pairwise_appendLoop _ _ n.toNat ?_ ?_ n.toNat le_rfl
    · -- the three pairs of one iteration are pairwise distinct edges
      intro i hi
      have h1 := tmod_char n ((i : Int) + 1) (by omega) (by omega) (by omega)
      have h2 := tmod_char n ((i : Int) + k) (by omega) (by omega) (by omega)
      simp only [List.pairwise_cons, List.mem_cons, List.not_mem_nil,
        or_false, List.Pairwise.nil, and_true]
      refine ⟨?_, ?_⟩
      · intro b hb
        rcases hb with rfl | rfl <;>
          simp only [sameEdge, outerPair, spokePair, innerPair] <;> omega
      · constructor
        · intro b hb
          rcases hb with rfl <;>
            simp only [sameEdge, spokePair, innerPair] <;> omega
        · simp only [List.pairwise_cons, List.not_mem_nil, false_implies,
            implies_true, List.Pairwise.nil, and_true]
    · -- pairs from different iterations are distinct edges
      intro i j hij hjM a ha b hb
      have h1i := tmod_char n ((i : Int) + 1) (by omega) (by omega) (by omega)
      have h2i := tmod_char n ((i : Int) + k) (by omega) (by omega) (by omega)
      have h1j := tmod_char n ((j : Int) + 1) (by omega) (by omega) (by omega)
      have h2j := tmod_char n ((j : Int) + k) (by omega) (by omega) (by omega)
      have hcast : (i : Int) < (j : Int) := by omega
      simp only [List.mem_cons, List.not_mem_nil, or_false] at ha hb
      rcases ha with rfl | rfl | rfl <;> rcases hb with rfl | rfl | rfl <;>
        simp only [sameEdge, outerPair, spokePair, innerPair] <;> omega

theorem c10_simple_graph_witness :
    (∀ p ∈ pairUp (enumerateEdges 5 2), p.1 ≠ p.2) ∧
    List.Pairwise (fun p q => ¬ sameEdge p q) (pairUp (enumerateEdges 5 2)) :=
  c10_simple_graph 5 2 (by refine ⟨by norm_num, by norm_num, by norm_num⟩)

/- ### Inner cycle structure (C5) -/

/-- The inner successor on ring indices in Nat form: index i connects to
(i + K) mod N, mirroring the emitted inner edge (i+n, ((i+k) mod n) + n). -/
def stepN (N K : Nat) (i : Nat) : Nat := (i + K) % N

/-- Bounded reachability along inner edges: b is reached from a within N
applications of the successor. -/
def reachesB (N K a b : Nat) : Bool :=
  (List.range (N + 1)).any (fun t => (stepN N K)^[t] a == b)

/-- The set of ring indices reachable from a: the connected component of a
in the inner subgraph, in ring coordinates. -/
def component (N K a : Nat) : Finset Nat :=
  (Finset.range N).filter (fun j => reachesB N K a j = true)

theorem iterate_stepN (N K : Nat) (hN : 0 < N) (a : Nat) (ha : a < N) :
    ∀ t, (stepN N K)^[t] a = (a + t * K) % N := by
  intro t
  induction t with
  | zero => simp [Nat.mod_eq_of_lt ha]
  | succ t ih =>
      rw [Function.iterate_succ_apply', ih]
      show ((a + t * K) % N + K) % N = _
      rw [Nat.mod_add_mod]
      congr 1
      ring

theorem reaches_mod_gcd {N K a b : Nat} (hN : 0 < N) (ha : a < N)
    (hr : reachesB N K a b = true) : b % N.gcd K = a % N.gcd K := by
  unfold reachesB at hr
  rw [List.any_eq_true] at hr
  obtain ⟨t, _, heq⟩ := hr
  rw [beq_iff_eq, iterate_stepN N K hN a ha t] at heq
  subst heq
  set g := N.gcd K with hgdef
  obtain ⟨c, hc⟩ : g ∣ K := Nat.gcd_dvd_right N K
  obtain ⟨d, hd⟩ : g ∣ N := Nat.gcd_dvd_left N K
  calc (a + t * K) % N % g
      = (a + t * K) % g := Nat.mod_mod_of_dvd _ ⟨d, hd⟩
    _ = (a + g * (t * c)) % g := by
        congr 1
        rw [hc]; ring
    _ = a % g := by rw [Nat.add_mul_mod_self_left]

theorem mod_gcd_reaches {N K a b : Nat} (hN : 0 < N) (ha : a < N) (hb : b < N)
    (hmod : b % N.gcd K = a % N.gcd K) : reachesB N K a b = true := by
  obtain ⟨m, hm⟩ : ((N.gcd K : Nat) : Int) ∣ (b : Int) - (a : Int) :=
    Nat.modEq_iff_dvd.mp (hmod.symm : Nat.ModEq (N.gcd K) a b)
  have hB : ((N.gcd K : Nat) : Int) =
      (N : Int) * Int.gcdA N K + (K : Int) * Int.gcdB N K := by
    rw [← Int.gcd_natCast_natCast N K]
    exact Int.gcd_eq_gcd_ab _ _
  have hNpos : (0 : Int) < (N : Int) := by exact_mod_cast hN
  have hTI0 : 0 ≤ (Int.gcdB N K * m) % (N : Int) :=
    Int.emod_nonneg _ (by omega)
  have hTIlt : (Int.gcdB N K * m) % (N : Int) < (N : Int) :=
    Int.emod_lt_of_pos _ hNpos
  have e1 : Int.ModEq (N : Int) ((Int.gcdB N K * m) % (N : Int) * K)
      (Int.gcdB N K * m * K) := by
    apply Int.ModEq.mul_right
    exact Int.emod_emod_of_dvd _ (dvd_refl _)
  have e2 : Int.ModEq (N : Int) (Int.gcdB N K * m * K) ((b : Int) - a) := by
    have hrearr : Int.gcdB N K * m * K =
        ((b : Int) - a) - (N : Int) * (m * Int.gcdA N K) := by
      rw [hm]
      linear_combination (-m) * hB
    rw [hrearr]
    show (((b : Int) - a) - (N : Int) * (m * Int.gcdA N K)) % (N : Int) =
      ((b : Int) - a) % (N : Int)
    have hshape : ((b : Int) - a) - (N : Int) * (m * Int.gcdA N K) =
        ((b : Int) - a) + (N : Int) * (-(m * Int.gcdA N K)) := by ring
    rw [hshape, Int.add_mul_emod_self_left]
  have hkey : ((a : Int) + (Int.gcdB N K * m) % (N : Int) * K) % N = (b : Int) := by
    have e3 := Int.ModEq.add_left (a : Int) (e1.trans e2)
    have e4 : ((a : Int) + (Int.gcdB N K * m) % (N : Int) * K) % (N : Int) =
        ((a : Int) + ((b : Int) - a)) % (N : Int) := e3
    rw [e4]
    have hba : (a : Int) + ((b : Int) - a) = (b : Int) := by ring
    rw [hba]
    exact Int.emod_eq_of_lt (by omega) (by exact_mod_cast hb)
  unfold reachesB
  rw [List.any_eq_true]
  refine ⟨((Int.gcdB N K * m) % (N : Int)).toNat,
    List.mem_range.mpr (by omega), ?_⟩
  rw [beq_iff_eq, iterate_stepN N K hN a ha]
  have h1 : (((a + ((Int.gcdB N K * m) % (N : Int)).toNat * K) % N : Nat) : Int) =
      ((a : Int) + (Int.gcdB N K * m) % (N : Int) * K) % (N : Int) := by
    push_cast
    rw [Int.toNat_of_nonneg hTI0]
  have h2 : (((a + ((Int.gcdB N K * m) % (N : Int)).toNat * K) % N : Nat) : Int) =
      (b : Int) := by rw [h1, hkey]
  exact_mod_cast h2

theorem component_eq_residue {N K : Nat} (hN : 0 < N) {a : Nat} (ha : a < N) :
    component N K a =
      (Finset.range N).filter (fun j => j % N.gcd K = a % N.gcd K) := by
  unfold component
  apply Finset.filter_congr
  intro j hj
  rw [Finset.mem_range] at hj
  constructor
  · exact fun hr => reaches_mod_gcd hN ha hr
  · exact fun hr => mod_gcd_reaches hN ha hj hr

theorem card_filter_mod (g M r : Nat) (hg : 0 < g) (hr : r < g) :
    ((Finset.range (g * M)).filter (fun j => j % g = r)).card = M := by
  have hinj : Function.Injective (fun q : Nat => g * q + r) := by
    intro q1 q2 hq
    simp only at hq
    have hq' : g * q1 = g * q2 := by omega
    exact Nat.eq_of_mul_eq_mul_left hg hq'
  have himg : (Finset.range M).image (fun q => g * q + r) =
      (Finset.range (g * M)).filter (fun j => j % g = r) := by
    ext j
    simp only [Finset.mem_image, Finset.mem_filter, Finset.mem_range]
    constructor
    · rintro ⟨q, hq, rfl⟩
      refine ⟨?_, ?_⟩
      · have hstep : g * q + g ≤ g * M := by
          calc g * q + g = g * (q + 1) := by ring
            _ ≤ g * M := Nat.mul_le_mul_left g hq
        omega
      · rw [Nat.mul_add_mod]
        exact Nat.mod_eq_of_lt hr
    · rintro ⟨hj, hmod⟩
      refine ⟨j / g, ?_, ?_⟩
      · rw [Nat.div_lt_iff_lt_mul hg, Nat.mul_comm M g]
        exact hj
      · have := Nat.div_add_mod j g
        omega
  rw [← himg, Finset.card_image_of_injective _ hinj, Finset.card_range]

theorem component_card {N K : Nat} (hN : 0 < N) {a : Nat} (ha : a < N) :
    (component N K a).card = N / N.gcd K := by
  rw [component_eq_residue hN ha]
  set g := N.gcd K with hgdef
  have hg : 0 < g := Nat.gcd_pos_of_pos_left K hN
  have hgN : g ∣ N := Nat.gcd_dvd_left N K
  have hNg : g * (N / g) = N := Nat.mul_div_cancel' hgN
  conv_lhs => rw [← hNg]
  exact card_filter_mod g (N / g) (a % g) hg (Nat.mod_lt a hg)

theorem component_count {N K : Nat} (hN : 0 < N) :
    ((Finset.range N).image (component N K)).card = N.gcd K := by
  have hg : 0 < N.gcd K := Nat.gcd_pos_of_pos_left K hN
  have hgle : N.gcd K ≤ N := Nat.le_of_dvd hN (Nat.gcd_dvd_left N K)
  have himg : (Finset.range N).image (component N K) =
      (Finset.range (N.gcd K)).image
        (fun r => (Finset.range N).filter (fun j => j % N.gcd K = r)) := by
    ext S
    simp only [Finset.mem_image, Finset.mem_range]
    constructor
    · rintro ⟨a, ha, rfl⟩
      exact ⟨a % N.gcd K, Nat.mod_lt a hg,
        (component_eq_residue hN ha).symm⟩
    · rintro ⟨r, hr, rfl⟩
      refine ⟨r, by omega, ?_⟩
      rw [component_eq_residue hN (show r < N by omega),
        Nat.mod_eq_of_lt hr]
  rw [himg]
  rw [Finset.card_image_of_injOn ?_, Finset.card_range]
  intro r1 h1 r2 h2 heq
  simp only [Finset.coe_range, Set.mem_Iio] at h1 h2
  have heq' : (Finset.range N).filter (fun j => j % N.gcd K = r1) =
      (Finset.range N).filter (fun j => j % N.gcd K = r2) := heq
  have hr1 : r1 ∈ (Finset.range N).filter (fun j => j % N.gcd K = r1) := by
    rw [Finset.mem_filter, Finset.mem_range]
    exact ⟨by omega, Nat.mod_eq_of_lt h1⟩
  rw [heq', Finset.mem_filter] at hr1
  rw [Nat.mod_eq_of_lt h1] at hr1
  exact hr1.2

theorem component_disjoint {N K : Nat} (hN : 0 < N) {a b : Nat}
    (ha : a < N) (hb : b < N) :
    component N K a = component N K b ∨
      Disjoint (component N K a) (component N K b) := by
  by_cases hab : a % N.gcd K = b % N.gcd K
  · left
    rw [component_eq_residue hN ha, component_eq_residue hN hb, hab]
  · right
    rw [component_eq_residue hN ha, component_eq_residue hN hb,
      Finset.disjoint_left]
    intro j hj1 hj2
    rw [Finset.mem_filter] at hj1 hj2
    exact hab (hj1.2 ▸ hj2.2)

theorem stepN_period {N K : Nat} (hN : 0 < N) {a : Nat} (ha : a < N) :
    (stepN N K)^[N / N.gcd K] a = a ∧
    ∀ t : Nat, 0 < t → t < N / N.gcd K → (stepN N K)^[t] a ≠ a := by
  have hg : 0 < N.gcd K := Nat.gcd_pos_of_pos_left K hN
  have hNg : N.gcd K * (N / N.gcd K) = N :=
    Nat.mul_div_cancel' (Nat.gcd_dvd_left N K)
  have hKg : N.gcd K * (K / N.gcd K) = K :=
    Nat.mul_div_cancel' (Nat.gcd_dvd_right N K)
  constructor
  · rw [iterate_stepN N K hN a ha]
    have hrw : N / N.gcd K * K = N * (K / N.gcd K) := by
      calc N / N.gcd K * K
          = N / N.gcd K * (N.gcd K * (K / N.gcd K)) := by rw [hKg]
        _ = N.gcd K * (N / N.gcd K) * (K / N.gcd K) := by ring
        _ = N * (K / N.gcd K) := by rw [hNg]
    rw [hrw, Nat.add_mul_mod_self_left, Nat.mod_eq_of_lt ha]
  · intro t ht htlt heq
    rw [iterate_stepN N K hN a ha] at heq
    have hdvd : N ∣ t * K := by
      have h1 : Nat.ModEq N a (a + t * K) := by
        show a % N = (a + t * K) % N
        rw [heq, Nat.mod_eq_of_lt ha]
      have h2 := (Nat.modEq_iff_dvd' (Nat.le_add_right a (t * K))).mp h1
      simpa using h2
    have hdiv : N / N.gcd K ∣ t * (K / N.gcd K) := by
      have hx : N.gcd K * (t * (K / N.gcd K)) = t * K := by
        calc N.gcd K * (t * (K / N.gcd K))
            = t * (N.gcd K * (K / N.gcd K)) := by ring
          _ = t * K := by rw [hKg]
      have h2 : N.gcd K * (N / N.gcd K) ∣ N.gcd K * (t * (K / N.gcd K)) := by
        rw [hNg, hx]
        exact hdvd
      exact (Nat.mul_dvd_mul_iff_left hg).mp h2
    have hcop : Nat.Coprime (N / N.gcd K) (K / N.gcd K) :=
      Nat.coprime_div_gcd_div_gcd hg
    have hdivt : N / N.gcd K ∣ t := hcop.dvd_of_dvd_mul_right hdiv
    have := Nat.le_of_dvd ht hdivt
    omega

/-- The inner pair of iteration i is the spec-level successor edge in ring
coordinates. -/
theorem innerPair_stepN {n k : Int} (h : ValidParams n k) {i : Nat}
    (hi : i < n.toNat) :
    innerPair n k (i : Int) =
      ((i : Int) + n, ((stepN n.toNat k.toNat i : Nat) : Int) + n) := by
  obtain ⟨hn, hk, hk2⟩ := h
  have h1 : (i : Int) + k = ((i + k.toNat : Nat) : Int) := by push_cast; omega
  have h2 : (n : Int) = ((n.toNat : Nat) : Int) := by omega
  have hsnd : ((i : Int) + k).tmod n =
      ((stepN n.toNat k.toNat i : Nat) : Int) := by
    conv_lhs => rw [h1, h2]
    rw [Int.tmod_eq_emod (by omega) (by omega), ← Int.ofNat_emod]
    rfl
  unfold innerPair
  rw [hsnd]

theorem mem_pairUp_enumerateEdges {n k : Int} (p : Int × Int) :
    p ∈ pairUp (enumerateEdges n k) ↔
      ∃ i : Nat, i < n.toNat ∧
        (p = outerPair n (i : Int) ∨ p = spokePair n (i : Int) ∨
         p = innerPair n k (i : Int)) := by
  rw [pairUp_enumerateEdges, mem_appendLoop]
  constructor
  · rintro ⟨i, hi, hp⟩
    simp only [List.mem_cons, List.not_mem_nil, or_false] at hp
    exact ⟨i, hi, hp⟩
  · rintro ⟨i, hi, hp⟩
    exact ⟨i, hi, by simpa using hp⟩

/-- C5: for every valid input with g = gcd(k, n), the n inner-cycle edges
emitted by the enumerator are exactly the pairs (i+n, ((i+k) mod n) + n) —
the successor edges of i ↦ (i+k) mod n on the ring indices — and they
decompose the inner vertex set into exactly g pairwise-disjoint cycles,
each containing n/g vertices, each vertex returning to itself after
exactly n/g steps; for n = 6, k = 2 this gives 2 components of size 3. -/
theorem c5_inner_cycles (n k : Int) (h : ValidParams n k) :
    (∀ a b : Nat,
      ((a : Int) + n, (b : Int) + n) ∈ pairUp (enumerateEdges n k) ↔
        a < n.toNat ∧ b = stepN n.toNat k.toNat a) ∧
    (∀ a : Nat, a < n.toNat →
      (component n.toNat k.toNat a).card = n.toNat / n.toNat.gcd k.toNat) ∧
    ((Finset.range n.toNat).image (component n.toNat k.toNat)).card =
      n.toNat.gcd k.toNat ∧
    (∀ a b : Nat, a < n.toNat → b < n.toNat →
      component n.toNat k.toNat a = component n.toNat k.toNat b ∨
        Disjoint (component n.toNat k.toNat a)
          (component n.toNat k.toNat b)) ∧
    (∀ a : Nat, a < n.toNat →
      (stepN n.toNat k.toNat)^[n.toNat / n.toNat.gcd k.toNat] a = a ∧
      ∀ t : Nat, 0 < t → t < n.toNat / n.toNat.gcd k.toNat →
        (stepN n.toNat k.toNat)^[t] a ≠ a) := by
  obtain ⟨hn, hk, hk2⟩ := h
  have hN : 0 < n.toNat := by omega
  refine ⟨?_, ?_, ?_, ?_, ?_⟩
  · intro a b
    rw [mem_pairUp_enumerateEdges]
    constructor
    · rintro ⟨i, hi, hp | hp | hp⟩
      · exfalso
        simp only [outerPair, Prod.mk.injEq] at hp
        omega
      · exfalso
        simp only [spokePair, Prod.mk.injEq] at hp
        omega
      · rw [innerPair_stepN ⟨hn, hk, hk2⟩ hi] at hp
        simp only [Prod.mk.injEq] at hp
        have hai : a = i := by omega
        subst hai
        exact ⟨hi, by omega⟩
    · rintro ⟨ha, rfl⟩
      refine ⟨a, ha, Or.inr (Or.inr ?_)⟩
      rw [innerPair_stepN ⟨hn, hk, hk2⟩ ha]
  · intro a ha
    exact component_card hN ha
  · exact component_count hN
  · intro a b ha hb
    exact component_disjoint hN ha hb
  · intro a ha
    exact stepN_period hN ha

theorem c5_inner_cycles_witness :
    ((Finset.range (6 : Int).toNat).image
      (component (6 : Int).toNat (2 : Int).toNat)).card = 2 ∧
    ∀ a : Nat, a < (6 : Int).toNat →
      (component (6 : Int).toNat (2 : Int).toNat a).card = 3 := by
  have h := c5_inner_cycles 6 2 (by refine ⟨by norm_num, by norm_num, by norm_num⟩)
  refine ⟨?_, ?_⟩
  · rw [h.2.2.1]
    decide
  · intro a ha
    rw [h.2.1 a ha]
    decide

end Petersen
